import Mathlib

/-!
Verification of `sharpest_frame_extractor.py`.

Shallow embedding conventions:
* A decoded frame is identified by its 0-based index in decode order; the opaque
  image pipeline (`cv2.cvtColor` + `variance_of_laplacian`) is abstracted by
  giving the per-frame sharpness scores directly as a `List ℚ` (frame `i` has
  score `scores.getD i 0`).  Laplacian variance is a variance, hence a
  non-negative real; theorems about normal operation carry the corresponding
  non-negativity hypothesis on the scores.
* Python float arithmetic is modelled exactly over `ℚ`.  In
  `int(time_in_sec // interval_sec)` the `//` is float floor-division and
  `int` of the already-floored value is the identity, so the bucket index is
  `⌊time_in_sec / interval_sec⌋ : ℤ`.  Python raises `ZeroDivisionError` when
  `interval_sec = 0`; all theorems below assume `interval_sec ≠ 0` (Lean's
  total `ℚ` division would silently return `0` there).
* The effectful wrappers (`process_video`, `process_videos_concurrently`,
  `main`) are embedded by turning their observable effects (warnings printed,
  frames written, handle release) into returned data; see the doc comments on
  the corresponding definitions.
-/

/-- Lines 46–47 of the source, for frame number `frameIndex`:
`time_in_sec = frame_index / fps if fps else 0` (Python truthiness: the
division branch is taken iff `fps ≠ 0`) followed by
`interval_idx = int(time_in_sec // interval_sec)`, i.e. the floor of
`time_in_sec / interval_sec`. -/
def bucketOf (fps interval_sec : ℚ) (frameIndex : ℕ) : ℤ :=
  let time_in_sec : ℚ := if fps ≠ 0 then (frameIndex : ℚ) / fps else 0
  ⌊time_in_sec / interval_sec⌋

/-- `if best_frame is not None: yield prev_interval, best_frame` (lines 40–41
and 50–51 of the source). -/
def flush (best_frame : Option ℕ) (prev_interval : ℤ) : List (ℤ × ℕ) :=
  match best_frame with
  | some f => [(prev_interval, f)]
  | none => []

/-- The `while True` loop of `extract_best_frames` (lines 37–60).  The list
argument is the stream of sharpness scores still to be read (`cap.read`
succeeding exactly `focusStream.length` more times); the remaining arguments
are the loop state `best_frame`, `best_focus`, `prev_interval`, `frame_index`.
The yielded pairs are collected in order into the result list. -/
def extractLoop (fps interval_sec : ℚ) :
    List ℚ → Option ℕ → ℚ → ℤ → ℕ → List (ℤ × ℕ)
  | [], best_frame, _best_focus, prev_interval, _frame_index =>
      flush best_frame prev_interval
  | focus :: rest, best_frame, best_focus, prev_interval, frame_index =>
      let interval_idx := bucketOf fps interval_sec frame_index
      if interval_idx ≠ prev_interval then
        flush best_frame prev_interval ++
          extractLoop fps interval_sec rest (some frame_index) focus interval_idx
            (frame_index + 1)
      else
        if focus > best_focus then
          extractLoop fps interval_sec rest (some frame_index) focus prev_interval
            (frame_index + 1)
        else
          extractLoop fps interval_sec rest best_frame best_focus prev_interval
            (frame_index + 1)

/-- `extract_best_frames` (lines 27–60): initial state
`best_frame = None`, `best_focus = -1`, `prev_interval = 0`, `frame_index = 0`. -/
def extract_best_frames (fps interval_sec : ℚ) (scores : List ℚ) : List (ℤ × ℕ) :=
  extractLoop fps interval_sec scores none (-1) 0 0

/-- Score of frame `i` (frames beyond the stream default to `0`; every theorem
only evaluates this at in-range indices). -/
def scoreAt (scores : List ℚ) (i : ℕ) : ℚ :=
  scores.getD i 0

/-- Spec/claim-side bucket of C1, `floor((i / frame_rate) / interval_length)`,
written exactly as in the claim (no special case for a zero rate). -/
def specBucket (fps interval_sec : ℚ) (i : ℕ) : ℤ :=
  ⌊((i : ℚ) / fps) / interval_sec⌋

/-- First maximal element: starting from candidate `cur`, replace the candidate
only on a strictly greater score (the spec's tie-break: first seen wins). -/
def bestFrom (scores : List ℚ) : ℕ → List ℕ → ℕ
  | cur, [] => cur
  | cur, j :: rest =>
      if scoreAt scores j > scoreAt scores cur then bestFrom scores j rest
      else bestFrom scores cur rest

/-- First maximal element of a list of frame indices, `none` on the empty list. -/
def bestIn (scores : List ℚ) : List ℕ → Option ℕ
  | [] => none
  | i :: rest => some (bestFrom scores i rest)

/-- Brute-force per-bucket argmax over an explicit list `m` of frame indices,
grouping frame `i` under bucket `g i` and picking the maximum-score frame of
each non-empty group; groups are listed in order of first appearance of their
bucket in `m` (for a monotone `g` this is increasing bucket order, the order
the generator yields). -/
def bruteList (g : ℕ → ℤ) (scores : List ℚ) (m : List ℕ) : List (ℤ × ℕ) :=
  ((m.map g).dedup).filterMap fun b =>
    (bestIn scores (m.filter fun i => g i = b)).map fun f => (b, f)

/-- The brute-force per-bucket argmax of claim C1: group frame `i` under bucket
`floor((i / frame_rate) / interval_length)` and pick the maximum-score frame of
each non-empty group. -/
def bruteForce (fps interval_sec : ℚ) (scores : List ℚ) : List (ℤ × ℕ) :=
  bruteList (specBucket fps interval_sec) scores (List.range scores.length)

/-- The streaming pass rephrased on the frame-index list: within the current
bucket `p` the candidate `f` is replaced only on a strictly greater score; on a
bucket change the pair `(p, f)` is emitted and the new frame opens its bucket.
Intermediate between `extractLoop` and `bruteList`. -/
def bruteMerge (g : ℕ → ℤ) (scores : List ℚ) : ℤ → ℕ → List ℕ → List (ℤ × ℕ)
  | p, f, [] => [(p, f)]
  | p, f, i :: rest =>
      if g i = p then
        bruteMerge g scores p (if scoreAt scores i > scoreAt scores f then i else f) rest
      else
        (p, f) :: bruteMerge g scores (g i) i rest

/-! ### Effect model of `process_video`, the scheduler and `main`

The IO wrappers are embedded by turning their inputs (does the source open,
does a write raise, stream contents) into data and their observable effects
(warning printed, frames written, handle released) into returned data. -/

/-- One input video for the effect model: whether `cv2.VideoCapture` opens it,
whether the first `save_frame` call raises, the reported frame rate, and the
per-frame sharpness scores of its decoded frames. -/
structure Video where
  opens : Bool
  writeFails : Bool
  fps : ℚ
  scores : List ℚ

/-- Observable outcome of `process_video` on one video: whether the warning of
line 70 was printed, which `(interval_idx, frame)` pairs were written by
`save_frame` (lines 84–86), and whether `cap.release()` (line 88) ran before
the function returned. -/
structure JobResult where
  warned : Bool
  files : List (ℤ × ℕ)
  released : Bool
  deriving DecidableEq

/-- `process_video` (lines 62–89) as a function from one video to its
observable outcome.
* Open failure: `get_video_properties` raises `IOError` (the `VideoCapture`
  constructed at line 19 is dropped without `release`), the warning is printed
  and the function returns having written nothing (lines 67–71).
* Write failure: a `save_frame` exception propagates out of the loop at lines
  84–86 and skips `cap.release()` at line 88; modelled as the first write
  raising, so no file is recorded and the handle is not released.
* Otherwise every pair yielded by `extract_best_frames` is written and the
  handle is released at line 88. -/
def process_video (interval_sec : ℚ) (v : Video) : JobResult :=
  if v.opens then
    if v.writeFails then { warned := false, files := [], released := false }
    else
      { warned := false,
        files := extract_best_frames v.fps interval_sec v.scores,
        released := true }
  else { warned := true, files := [], released := false }

/-- `process_videos_concurrently` (lines 91–102) submits one independent
`process_video` job per input to the thread pool; jobs share no mutable state,
so the observable per-video outcomes are the outcomes of the independent jobs,
in input order. -/
def process_videos_concurrently (interval_sec : ℚ) (videos : List Video) :
    List JobResult :=
  videos.map (process_video interval_sec)

/-- The Python `process_videos_concurrently` has no `return` statement: its
return value is `None` for every input, modelled as `Unit`. -/
def process_videos_concurrently_return (_interval_sec : ℚ)
    (_videos : List Video) : Unit := ()

/-- `main` (lines 104–137) parses arguments and calls the scheduler; it never
raises for a parsed argument list (worker exceptions are captured inside the
unexamined futures of the `ThreadPoolExecutor`), returns `None`, and the
interpreter exits with status 0. -/
def main_exit_code (_interval_sec : ℚ) (_videos : List Video) : ℕ := 0

/-! ### Elementary facts about the bucket function -/

/-- Frame `0` always lands in bucket `0`: its elapsed time is `0` on both
branches of line 46. -/
theorem bucketOf_zero (fps interval_sec : ℚ) : bucketOf fps interval_sec 0 = 0 := by
  unfold bucketOf
  split <;> simp

/-- With a zero frame rate every frame's elapsed time is `0`, so every frame
lands in bucket `0`. -/
theorem bucketOf_zero_fps (interval_sec : ℚ) (i : ℕ) :
    bucketOf 0 interval_sec i = 0 := by
  unfold bucketOf
  simp

/-- With a non-negative frame rate and a positive interval the bucket index is
monotone in the frame index. -/
theorem bucketOf_mono (fps interval_sec : ℚ) (hfps : 0 ≤ fps)
    (hint : 0 < interval_sec) : Monotone (bucketOf fps interval_sec) := by
  intro i j hij
  rcases eq_or_lt_of_le hfps with h0 | h0
  · rw [← h0]
    simp [bucketOf_zero_fps]
  · unfold bucketOf
    rw [if_pos (ne_of_gt h0), if_pos (ne_of_gt h0)]
    apply Int.floor_mono
    apply div_le_div_of_nonneg_right _ hint.le
    apply div_le_div_of_nonneg_right _ h0.le
    exact_mod_cast hij

/-- For a non-zero frame rate the claim's bucket formula coincides with the
code's. -/
theorem specBucket_eq_bucketOf (fps interval_sec : ℚ) (hfps : fps ≠ 0) :
    specBucket fps interval_sec = bucketOf fps interval_sec := by
  funext i
  simp [specBucket, bucketOf, hfps]

/-! ### Facts about the first-maximum selector -/

theorem bestFrom_cons (scores : List ℚ) (c j : ℕ) (rest : List ℕ) :
    bestFrom scores c (j :: rest) =
      if scoreAt scores j > scoreAt scores c then bestFrom scores j rest
      else bestFrom scores c rest := rfl

theorem bestFrom_mem (scores : List ℚ) (c : ℕ) (l : List ℕ) :
    bestFrom scores c l ∈ c :: l := by
  induction l generalizing c with
  | nil => simp [bestFrom]
  | cons j rest ih =>
      rw [bestFrom_cons]
      by_cases hgt : scoreAt scores j > scoreAt scores c
      · rw [if_pos hgt]
        have := ih j
        simp only [List.mem_cons] at this ⊢
        tauto
      · rw [if_neg hgt]
        have := ih c
        simp only [List.mem_cons] at this ⊢
        tauto

theorem bestFrom_le (scores : List ℚ) (c : ℕ) (l : List ℕ) :
    ∀ j ∈ c :: l, scoreAt scores j ≤ scoreAt scores (bestFrom scores c l) := by
  induction l generalizing c with
  | nil => simp [bestFrom]
  | cons i rest ih =>
      intro j hj
      simp only [List.mem_cons] at hj
      rw [bestFrom_cons]
      by_cases hgt : scoreAt scores i > scoreAt scores c
      · rw [if_pos hgt]
        rcases hj with rfl | rfl | hj
        · exact le_trans (le_of_lt hgt) (ih i i (by simp))
        · exact ih j j (by simp)
        · exact ih i j (by simp [hj])
      · rw [if_neg hgt]
        push_neg at hgt
        rcases hj with rfl | rfl | hj
        · exact ih j j (by simp)
        · exact le_trans hgt (ih c c (by simp))
        · exact ih c j (by simp [hj])

/-- If the selector moved off the initial candidate, it did so through a
strictly greater score. -/
theorem bestFrom_ne_lt (scores : List ℚ) (c : ℕ) (l : List ℕ)
    (h : bestFrom scores c l ≠ c) :
    scoreAt scores c < scoreAt scores (bestFrom scores c l) := by
  induction l generalizing c with
  | nil => simp [bestFrom] at h
  | cons i rest ih =>
      rw [bestFrom_cons] at h ⊢
      by_cases hgt : scoreAt scores i > scoreAt scores c
      · rw [if_pos hgt] at h ⊢
        exact lt_of_lt_of_le hgt (bestFrom_le scores i rest i (by simp))
      · rw [if_neg hgt] at h ⊢
        exact ih c h

/-! ### Structure of `dedup` on sorted lists and of `bruteList` -/

/-- Deduplicating a non-decreasing list keeps its head and deduplicates the
strictly larger remainder. -/
theorem dedup_cons_sorted (a : ℤ) (xs : List ℤ) (hle : ∀ x ∈ xs, a ≤ x)
    (hpw : xs.Pairwise (· ≤ ·)) :
    (a :: xs).dedup = a :: (xs.filter fun x => a < x).dedup := by
  induction xs with
  | nil => simp
  | cons b t ih =>
      rw [List.pairwise_cons] at hpw
      obtain ⟨hbt, hpt⟩ := hpw
      have hab : a ≤ b := hle b (by simp)
      rcases eq_or_lt_of_le hab with rfl | hlt
      · rw [List.dedup_cons_of_mem (List.mem_cons_self a t), ih hbt hpt]
        congr 2
        rw [List.filter_cons]
        simp
      · have hat : ∀ x ∈ b :: t, a < x := by
          intro x hx
          rcases List.mem_cons.mp hx with rfl | hx
          · exact hlt
          · exact lt_of_lt_of_le hlt (hbt x hx)
        rw [List.dedup_cons_of_not_mem (fun hmem => absurd (hat a hmem) (lt_irrefl a))]
        congr 2
        exact (List.filter_eq_self.mpr fun x hx => by simpa using hat x hx).symm

/-- Peeling the first frame off the brute-force grouping: when all later frames
have buckets at least the head's, the head's bucket forms the first group and
the strictly later buckets form the rest. -/
theorem bruteList_cons (g : ℕ → ℤ) (scores : List ℚ) (i : ℕ) (r : List ℕ)
    (h1 : ∀ j ∈ r, g i ≤ g j) (h2 : r.Pairwise fun x y => g x ≤ g y) :
    bruteList g scores (i :: r) =
      (g i, bestFrom scores i (r.filter fun j => g j = g i)) ::
        bruteList g scores (r.filter fun j => g i < g j) := by
  unfold bruteList
  have hd : ((i :: r).map g).dedup =
      g i :: ((r.map g).filter fun x => g i < x).dedup := by
    rw [List.map_cons]
    exact dedup_cons_sorted (g i) (r.map g)
      (by
        intro x hx
        obtain ⟨j, hj, rfl⟩ := List.mem_map.mp hx
        exact h1 j hj)
      (by
        rw [List.pairwise_map]
        exact h2)
  rw [hd, List.filterMap_cons]
  have hhead : ((i :: r).filter fun j => g j = g i) =
      i :: r.filter (fun j => g j = g i) := by
    rw [List.filter_cons]
    simp
  rw [hhead]
  simp only [bestIn, Option.map_some']
  congr 1
  have hmapfil : ((r.map g).filter fun x => g i < x) =
      (r.filter fun j => g i < g j).map g := by
    rw [List.filter_map]
    rfl
  rw [hmapfil]
  apply List.filterMap_congr
  intro b hb
  have hgib : g i < b := by
    obtain ⟨j, hj, rfl⟩ := List.mem_map.mp (List.mem_dedup.mp hb)
    exact of_decide_eq_true (List.mem_filter.mp hj).2
  have hcons : ((i :: r).filter fun j => g j = b) = r.filter fun j => g j = b := by
    rw [List.filter_cons]
    rw [if_neg (by simpa using (ne_of_lt hgib))]
  have hff : (r.filter fun j => g j = b) =
      (r.filter fun j => g i < g j).filter fun j => g j = b := by
    rw [List.filter_filter]
    apply List.filter_congr
    intro j _hj
    by_cases hjb : g j = b
    · simp [hjb, hgib]
    · simp [hjb]
  rw [hcons, hff]

/-- The streaming per-bucket pass over the suffix equals the brute-force
grouping: the open bucket `p` absorbs its remaining frames (strict-improvement
merge with the carried candidate `f`), and the strictly later buckets are
grouped from scratch. -/
theorem bruteMerge_eq (g : ℕ → ℤ) (scores : List ℚ) (l : List ℕ) :
    ∀ (p : ℤ) (f : ℕ), (∀ j ∈ l, p ≤ g j) → l.Pairwise (fun x y => g x ≤ g y) →
    bruteMerge g scores p f l =
      (p, bestFrom scores f (l.filter fun j => g j = p)) ::
        bruteList g scores (l.filter fun j => p < g j) := by
  induction l with
  | nil =>
      intro p f _ _
      simp [bruteMerge, bestFrom, bruteList]
  | cons i r ih =>
      intro p f h1 h2
      rw [List.pairwise_cons] at h2
      obtain ⟨hir, h2'⟩ := h2
      by_cases hb : g i = p
      · rw [bruteMerge, if_pos hb]
        rw [ih p _ (fun j hj => hb ▸ hir j hj) h2']
        have hfe : ((i :: r).filter fun j => g j = p) =
            i :: r.filter (fun j => g j = p) := by
          rw [List.filter_cons]
          simp [hb]
        have hfl : ((i :: r).filter fun j => p < g j) =
            r.filter fun j => p < g j := by
          rw [List.filter_cons]
          simp [hb]
        rw [hfe, hfl, bestFrom_cons]
        by_cases hcmp : scoreAt scores i > scoreAt scores f
        · rw [if_pos hcmp, if_pos hcmp]
        · rw [if_neg hcmp, if_neg hcmp]
      · have hpi : p < g i := lt_of_le_of_ne (h1 i (by simp)) (Ne.symm hb)
        rw [bruteMerge, if_neg hb]
        rw [ih (g i) i hir h2']
        have hfe : ((i :: r).filter fun j => g j = p) = [] := by
          rw [List.filter_eq_nil_iff]
          intro j hj
          rcases List.mem_cons.mp hj with rfl | hj
          · simpa using hb
          · simpa using ne_of_gt (lt_of_lt_of_le hpi (hir j hj))
        have hfl : ((i :: r).filter fun j => p < g j) = i :: r :=
          List.filter_eq_self.mpr fun j hj => by
            rcases List.mem_cons.mp hj with rfl | hj
            · simpa using hpi
            · simpa using lt_of_lt_of_le hpi (hir j hj)
        rw [hfe, hfl, bruteList_cons g scores i r hir h2']
        rfl

/-! ### The streaming loop computes the merge pass -/

theorem extractLoop_cons (fps interval_sec focus : ℚ) (rest : List ℚ)
    (bf : Option ℕ) (bs : ℚ) (p : ℤ) (k : ℕ) :
    extractLoop fps interval_sec (focus :: rest) bf bs p k =
      if bucketOf fps interval_sec k ≠ p then
        flush bf p ++
          extractLoop fps interval_sec rest (some k) focus
            (bucketOf fps interval_sec k) (k + 1)
      else if focus > bs then
        extractLoop fps interval_sec rest (some k) focus p (k + 1)
      else
        extractLoop fps interval_sec rest bf bs p (k + 1) := rfl

/-- Once a best frame is held, the remaining loop is exactly the merge pass
over the remaining frame indices. -/
theorem extractLoop_eq_bruteMerge (fps interval_sec : ℚ) (scores : List ℚ) :
    ∀ (rest : List ℚ) (k f : ℕ) (s : ℚ) (p : ℤ),
      rest = scores.drop k → s = scoreAt scores f →
      extractLoop fps interval_sec rest (some f) s p k =
        bruteMerge (bucketOf fps interval_sec) scores p f
          (List.range' k rest.length) := by
  intro rest
  induction rest with
  | nil =>
      intro k f s p _ _
      simp [extractLoop, bruteMerge, flush]
  | cons c r ih =>
      intro k f s p hrest hs
      have hget : scores[k]? = some c := by
        have h0 := List.getElem?_drop scores k 0
        rw [← hrest] at h0
        simpa using h0.symm
      have hc : scoreAt scores k = c := by
        unfold scoreAt
        rw [List.getD_eq_getD_get?, List.get?_eq_getElem?, hget]
        rfl
      have hr : r = scores.drop (k + 1) := by
        have : scores.drop (k + 1) = (scores.drop k).drop 1 := by
          rw [List.drop_drop, Nat.add_comm]
        rw [this, ← hrest]
        rfl
      rw [show (c :: r).length = r.length + 1 from rfl,
        List.range'_succ k r.length 1, extractLoop_cons]
      by_cases hb : bucketOf fps interval_sec k = p
      · rw [if_neg (not_not_intro hb), bruteMerge, if_pos hb]
        by_cases hcmp : c > s
        · rw [if_pos hcmp]
          rw [if_pos (by rw [hc, ← hs]; exact hcmp)]
          exact ih (k + 1) k c p hr hc.symm
        · rw [if_neg hcmp]
          rw [if_neg (by rw [hc, ← hs]; exact hcmp)]
          exact ih (k + 1) f s p hr hs
      · rw [if_pos hb, bruteMerge, if_neg hb]
        rw [show flush (some f) p = [(p, f)] from rfl]
        rw [List.singleton_append]
        congr 1
        exact ih (k + 1) k c (bucketOf fps interval_sec k) hr hc.symm

/-- Master characterization: under a non-negative frame rate, a positive
interval, and scores above the `-1` sentinel, the generator's output is the
brute-force per-bucket argmax over all frames, grouped by the code's bucket
function. -/
theorem extract_eq_bruteList (fps interval_sec : ℚ) (scores : List ℚ)
    (hfps : 0 ≤ fps) (hint : 0 < interval_sec)
    (hsc : ∀ x ∈ scores, -1 < x) :
    extract_best_frames fps interval_sec scores =
      bruteList (bucketOf fps interval_sec) scores
        (List.range scores.length) := by
  cases scores with
  | nil => simp [extract_best_frames, extractLoop, flush, bruteList]
  | cons c r =>
      have hmono := bucketOf_mono fps interval_sec hfps hint
      have hstep1 : extract_best_frames fps interval_sec (c :: r) =
          bruteMerge (bucketOf fps interval_sec) (c :: r) 0 0
            (List.range' 1 r.length) := by
        unfold extract_best_frames
        rw [extractLoop_cons, bucketOf_zero]
        rw [if_neg (by simp)]
        rw [if_pos (by simpa using hsc c (by simp))]
        exact extractLoop_eq_bruteMerge fps interval_sec (c :: r) r 1 0 c 0 rfl rfl
      rw [hstep1]
      have h2 : (List.range' 1 r.length).Pairwise
          (fun x y => bucketOf fps interval_sec x ≤ bucketOf fps interval_sec y) :=
        (List.pairwise_lt_range' 1 r.length).imp fun h => hmono (le_of_lt h)
      have h1 : ∀ j ∈ List.range' 1 r.length,
          (0 : ℤ) ≤ bucketOf fps interval_sec j := by
        intro j _
        rw [← bucketOf_zero fps interval_sec]
        exact hmono (Nat.zero_le j)
      rw [bruteMerge_eq (bucketOf fps interval_sec) (c :: r)
        (List.range' 1 r.length) 0 0 h1 h2]
      have hrange : List.range (c :: r).length = 0 :: List.range' 1 r.length := by
        rw [List.length_cons, List.range_eq_range']
        exact List.range'_succ 0 r.length 1
      rw [hrange]
      rw [bruteList_cons (bucketOf fps interval_sec) (c :: r) 0
        (List.range' 1 r.length)
        (by
          intro j hj
          rw [bucketOf_zero]
          exact h1 j hj) h2]
      simp only [bucketOf_zero]

/-- Once a best frame is held, the loop always emits at least one pair. -/
theorem extractLoop_some_ne_nil (fps interval_sec : ℚ) :
    ∀ (rest : List ℚ) (f : ℕ) (s : ℚ) (p : ℤ) (k : ℕ),
      extractLoop fps interval_sec rest (some f) s p k ≠ [] := by
  intro rest
  induction rest with
  | nil =>
      intro f s p k
      simp [extractLoop, flush]
  | cons c r ih =>
      intro f s p k
      rw [extractLoop_cons]
      by_cases hb : bucketOf fps interval_sec k ≠ p
      · rw [if_pos hb]
        simp [flush]
      · rw [if_neg hb]
        by_cases hcmp : c > s
        · rw [if_pos hcmp]
          exact ih k c p (k + 1)
        · rw [if_neg hcmp]
          exact ih f s p (k + 1)

/-- The first components of the brute-force grouping are exactly the distinct
buckets, in order: every present bucket contributes one pair and no other
bucket contributes any. -/
theorem bruteList_map_fst (g : ℕ → ℤ) (scores : List ℚ) (m : List ℕ) :
    (bruteList g scores m).map Prod.fst = (m.map g).dedup := by
  unfold bruteList
  have key : ∀ d : List ℤ, (∀ b ∈ d, b ∈ m.map g) →
      ((d.filterMap fun b =>
        (bestIn scores (m.filter fun i => g i = b)).map fun f => (b, f)).map
          Prod.fst) = d := by
    intro d
    induction d with
    | nil => simp
    | cons b t ih =>
        intro hmem
        obtain ⟨j, hj, hgj⟩ := List.mem_map.mp (hmem b (by simp))
        have hne : (m.filter fun i => g i = b) ≠ [] := by
          intro hnil
          have hjmem : j ∈ m.filter fun i => g i = b :=
            List.mem_filter.mpr ⟨hj, by simp [hgj]⟩
          rw [hnil] at hjmem
          simp at hjmem
        obtain ⟨x, xs, hx⟩ := List.exists_cons_of_ne_nil hne
        have hfb : (bestIn scores (m.filter fun i => g i = b)).map
            (fun f => (b, f)) = some (b, bestFrom scores x xs) := by
          rw [hx]
          rfl
        have hstep : ((b :: t).filterMap fun b =>
              (bestIn scores (m.filter fun i => g i = b)).map fun f => (b, f)) =
            (b, bestFrom scores x xs) :: (t.filterMap fun b =>
              (bestIn scores (m.filter fun i => g i = b)).map fun f => (b, f)) := by
          rw [List.filterMap_cons, hfb]
        rw [hstep, List.map_cons, ih fun b' hb' => hmem b' (by simp [hb'])]
  exact key _ fun b hb => List.mem_dedup.mp hb

/-- A pair emitted by the brute-force grouping carries the first-maximum frame
of its bucket's group. -/
theorem mem_bruteList (g : ℕ → ℤ) (scores : List ℚ) (m : List ℕ) (b : ℤ) (F : ℕ)
    (h : (b, F) ∈ bruteList g scores m) :
    bestIn scores (m.filter fun i => g i = b) = some F := by
  unfold bruteList at h
  obtain ⟨b', _hb', hF⟩ := List.mem_filterMap.mp h
  cases hbest : bestIn scores (m.filter fun i => g i = b') with
  | none =>
      rw [hbest] at hF
      simp at hF
  | some x =>
      rw [hbest] at hF
      simp only [Option.map_some', Option.some.injEq, Prod.mk.injEq] at hF
      obtain ⟨rfl, rfl⟩ := hF
      exact hbest

/-- Among the candidates, any element strictly before the selected one (in the
index order of a strictly sorted candidate list) has a strictly smaller score:
first-seen-wins on ties. -/
theorem bestFrom_earliest (scores : List ℚ) (c : ℕ) (l : List ℕ)
    (hpw : (c :: l).Pairwise (· < ·)) :
    ∀ j ∈ c :: l, j < bestFrom scores c l →
      scoreAt scores j < scoreAt scores (bestFrom scores c l) := by
  induction l generalizing c with
  | nil =>
      intro j hj hlt
      simp only [List.mem_singleton] at hj
      subst hj
      simp [bestFrom] at hlt
  | cons i rest ih =>
      intro j hj hlt
      rw [List.pairwise_cons] at hpw
      obtain ⟨hc, hpw'⟩ := hpw
      rw [bestFrom_cons] at hlt ⊢
      by_cases hgt : scoreAt scores i > scoreAt scores c
      · rw [if_pos hgt] at hlt ⊢
        simp only [List.mem_cons] at hj
        rcases hj with rfl | hj
        · exact lt_of_lt_of_le hgt (bestFrom_le scores i rest i (by simp))
        · exact ih i hpw' j (by simpa using hj) hlt
      · rw [if_neg hgt] at hlt ⊢
        push_neg at hgt
        simp only [List.mem_cons] at hj
        rcases hj with rfl | rfl | hj
        · have hne : bestFrom scores j rest ≠ j := by omega
          exact bestFrom_ne_lt scores j rest hne
        · -- j = i; the selected element lies beyond i, so it was reached by a
          -- strict improvement over c, and score i ≤ score c.
          have hci : c < j := hc j (by simp)
          have hne : bestFrom scores c rest ≠ c := by omega
          exact lt_of_le_of_lt hgt (bestFrom_ne_lt scores c rest hne)
        · have hpc : (c :: rest).Pairwise (· < ·) := by
            rw [List.pairwise_cons]
            refine ⟨fun a ha => hc a (by simp [ha]), (List.pairwise_cons.mp hpw').2⟩
          exact ih c hpc j (by simp [hj]) hlt

/-! ## Claims -/

/-- C1: For every finite input frame sequence with known per-frame sharpness
scores, a positive frame rate, and a positive interval length, the sequence of
`(bucket_index, frame)` pairs yielded by `extract_best_frames` equals the
brute-force per-bucket argmax obtained by grouping frame `i` under bucket
`floor((i / frame_rate) / interval_length)` and picking the maximum-score
frame of each non-empty group.  Sharpness scores are Laplacian variances,
hence non-negative; the hypothesis on `scores` records this. -/
theorem extract_best_frames_eq_bruteForce (fps interval_sec : ℚ)
    (scores : List ℚ) (hfps : 0 < fps) (hint : 0 < interval_sec)
    (hsc : ∀ x ∈ scores, 0 ≤ x) :
    extract_best_frames fps interval_sec scores =
      bruteForce fps interval_sec scores := by
  unfold bruteForce
  rw [specBucket_eq_bucketOf fps interval_sec (ne_of_gt hfps)]
  exact extract_eq_bruteList fps interval_sec scores hfps.le hint
    fun x hx => lt_of_lt_of_le (by norm_num) (hsc x hx)

/-- Witness for C1: frame rate 2, interval 1, scores `[1, 3, 2, 5]` (buckets
`[0, 0, 1, 1]`, argmaxes frame 1 and frame 3). -/
theorem extract_best_frames_eq_bruteForce_witness :
    (0 : ℚ) < 2 ∧ (0 : ℚ) < 1 ∧
      extract_best_frames 2 1 [1, 3, 2, 5] = bruteForce 2 1 [1, 3, 2, 5] :=
  ⟨by norm_num, by norm_num,
    extract_best_frames_eq_bruteForce 2 1 [1, 3, 2, 5] (by norm_num)
      (by norm_num) (by intro x hx; fin_cases hx <;> norm_num)⟩

/-- C2: every pair `(b, F)` yielded by `extract_best_frames` carries a frame
of bucket `b`'s group attaining the group's maximum score, and every frame of
the group with the same (maximal) score arrived no earlier than `F`: on equal
maximal scores the earliest-arriving frame is emitted, because line 56
replaces the current best only on a strictly greater score. -/
theorem extract_best_frames_tie_earliest (fps interval_sec : ℚ)
    (scores : List ℚ) (hfps : 0 < fps) (hint : 0 < interval_sec)
    (hsc : ∀ x ∈ scores, 0 ≤ x) :
    ∀ b F, (b, F) ∈ extract_best_frames fps interval_sec scores →
      (F ∈ (List.range scores.length).filter
          (fun i => specBucket fps interval_sec i = b)) ∧
      (∀ j ∈ (List.range scores.length).filter
          (fun i => specBucket fps interval_sec i = b),
        scoreAt scores j ≤ scoreAt scores F) ∧
      (∀ j ∈ (List.range scores.length).filter
          (fun i => specBucket fps interval_sec i = b),
        scoreAt scores j = scoreAt scores F → F ≤ j) := by
  intro b F hmem
  rw [extract_eq_bruteList fps interval_sec scores hfps.le hint
    (fun x hx => lt_of_lt_of_le (by norm_num) (hsc x hx))] at hmem
  have hbest := mem_bruteList _ _ _ _ _ hmem
  rw [specBucket_eq_bucketOf fps interval_sec (ne_of_gt hfps)]
  rcases hG : (List.range scores.length).filter
      (fun i => bucketOf fps interval_sec i = b) with _ | ⟨x, xs⟩
  · rw [hG] at hbest
    simp [bestIn] at hbest
  · rw [hG] at hbest
    simp only [bestIn, Option.some.injEq] at hbest
    have hpw : (x :: xs).Pairwise (· < ·) := by
      rw [← hG]
      exact List.Pairwise.filter _ (List.pairwise_lt_range scores.length)
    subst hbest
    refine ⟨bestFrom_mem scores x xs, bestFrom_le scores x xs, ?_⟩
    intro j hj heq
    by_contra hlt
    push_neg at hlt
    exact absurd heq (ne_of_lt (bestFrom_earliest scores x xs hpw j hj hlt))

/-- Witness for C2 at frame rate 2, interval 1, scores `[3, 3, 2, 5]`
(frames 0 and 1 share bucket 0 with equal maximal score 3; the earlier frame 0
is emitted). -/
theorem extract_best_frames_tie_earliest_witness :
    (0 : ℚ) < 2 ∧ (0 : ℚ) < 1 ∧
      (∀ b F, (b, F) ∈ extract_best_frames 2 1 [3, 3, 2, 5] →
        (F ∈ (List.range ([3, 3, 2, 5] : List ℚ).length).filter
            (fun i => specBucket 2 1 i = b)) ∧
        (∀ j ∈ (List.range ([3, 3, 2, 5] : List ℚ).length).filter
            (fun i => specBucket 2 1 i = b),
          scoreAt [3, 3, 2, 5] j ≤ scoreAt [3, 3, 2, 5] F) ∧
        (∀ j ∈ (List.range ([3, 3, 2, 5] : List ℚ).length).filter
            (fun i => specBucket 2 1 i = b),
          scoreAt [3, 3, 2, 5] j = scoreAt [3, 3, 2, 5] F → F ≤ j)) :=
  ⟨by norm_num, by norm_num,
    extract_best_frames_tie_earliest 2 1 [3, 3, 2, 5] (by norm_num)
      (by norm_num) (by intro x hx; fin_cases hx <;> norm_num)⟩

/-- C10: a non-empty stream all of whose sharpness scores exceed the `-1`
sentinel (true of the non-negative Laplacian variance) yields at least one
pair: frame 0 lands in bucket 0, which equals the initial `prev_interval`, so
line 56's `focus > best_focus` holds against the sentinel and a best frame is
held from then on, to be flushed at the latest on stream exhaustion.  And the
stream `[-2, 5]` at rate 1, interval 1 — whose first bucket's only frame
scores `≤ -1` — yields `[(1, 1)]`: nothing for bucket 0. -/
theorem sentinel_nonempty_output :
    (∀ (fps interval_sec : ℚ) (scores : List ℚ), 0 < interval_sec →
      scores ≠ [] → (∀ x ∈ scores, -1 < x) →
      extract_best_frames fps interval_sec scores ≠ []) ∧
    extract_best_frames 1 1 [-2, 5] = [(1, 1)] := by
  constructor
  · intro fps interval_sec scores _hint hne hsc
    obtain ⟨c, r, rfl⟩ := List.exists_cons_of_ne_nil hne
    unfold extract_best_frames
    rw [extractLoop_cons, bucketOf_zero, if_neg (by simp),
      if_pos (by simpa using hsc c (by simp))]
    exact extractLoop_some_ne_nil fps interval_sec r 0 c 0 1
  · norm_num [extract_best_frames, extractLoop, bucketOf, flush]

/-- Witness for C10's universally quantified part at rate 1, interval 1,
stream `[5]`. -/
theorem sentinel_nonempty_output_witness :
    (0 : ℚ) < 1 ∧ ([5] : List ℚ) ≠ [] ∧
      extract_best_frames 1 1 [5] ≠ [] :=
  ⟨by norm_num, by simp,
    sentinel_nonempty_output.1 1 1 [5] (by norm_num) (by simp)
      (by intro x hx; fin_cases hx <;> norm_num)⟩

/-- C3: for every input frame sequence processed with non-decreasing elapsed
times (line 46 derives elapsed time `i / fps`, non-decreasing exactly when
`0 ≤ fps`), a positive interval and non-negative sharpness scores,
`extract_best_frames` yields exactly one pair per bucket index that received
at least one frame and no pair for any other bucket index (membership in the
yielded bucket indices is equivalent to the bucket being non-empty), and the
yielded bucket indices are strictly increasing in yield order (which also
makes them duplicate-free, hence "exactly one"). -/
theorem extract_best_frames_buckets_exactly_once (fps interval_sec : ℚ)
    (scores : List ℚ) (hfps : 0 ≤ fps) (hint : 0 < interval_sec)
    (hsc : ∀ x ∈ scores, 0 ≤ x) :
    (∀ b : ℤ, b ∈ (extract_best_frames fps interval_sec scores).map Prod.fst ↔
      ∃ i, i < scores.length ∧ bucketOf fps interval_sec i = b) ∧
    ((extract_best_frames fps interval_sec scores).map Prod.fst).Pairwise
      (· < ·) := by
  rw [extract_eq_bruteList fps interval_sec scores hfps hint
    (fun x hx => lt_of_lt_of_le (by norm_num) (hsc x hx))]
  rw [bruteList_map_fst]
  constructor
  · intro b
    rw [List.mem_dedup, List.mem_map]
    constructor
    · rintro ⟨i, hi, rfl⟩
      exact ⟨i, List.mem_range.mp hi, rfl⟩
    · rintro ⟨i, hi, hb⟩
      exact ⟨i, List.mem_range.mpr hi, hb⟩
  · have hle : ((List.range scores.length).map
        (bucketOf fps interval_sec)).Pairwise (· ≤ ·) := by
      rw [List.pairwise_map]
      exact (List.pairwise_lt_range scores.length).imp
        fun h => bucketOf_mono fps interval_sec hfps hint h.le
    have hple := List.Pairwise.sublist
      (List.dedup_sublist ((List.range scores.length).map
        (bucketOf fps interval_sec))) hle
    have hnd := List.nodup_dedup ((List.range scores.length).map
      (bucketOf fps interval_sec))
    exact (List.Pairwise.and hple hnd).imp fun h => lt_of_le_of_ne h.1 h.2

/-- Witness for C3 at frame rate 2, interval 1, scores `[1, 3, 2, 5]`. -/
theorem extract_best_frames_buckets_exactly_once_witness :
    (0 : ℚ) ≤ 2 ∧ (0 : ℚ) < 1 ∧
      ((∀ b : ℤ, b ∈ (extract_best_frames 2 1 [1, 3, 2, 5]).map Prod.fst ↔
        ∃ i, i < ([1, 3, 2, 5] : List ℚ).length ∧ bucketOf 2 1 i = b) ∧
      ((extract_best_frames 2 1 [1, 3, 2, 5]).map Prod.fst).Pairwise (· < ·)) :=
  ⟨by norm_num, by norm_num,
    extract_best_frames_buckets_exactly_once 2 1 [1, 3, 2, 5] (by norm_num)
      (by norm_num) (by intro x hx; fin_cases hx <;> norm_num)⟩

/-- C4: on stream exhaustion the still-open final bucket — the bucket of the
last frame read — is emitted exactly once whenever the stream is non-empty
(lines 38–42 flush the held best frame), even when the stream ends mid-bucket;
and a zero-frame stream yields nothing and raises no error. -/
theorem extract_best_frames_final_bucket (fps interval_sec : ℚ)
    (scores : List ℚ) (hfps : 0 ≤ fps) (hint : 0 < interval_sec)
    (hsc : ∀ x ∈ scores, 0 ≤ x) :
    extract_best_frames fps interval_sec [] = [] ∧
    (scores ≠ [] →
      ((extract_best_frames fps interval_sec scores).map Prod.fst).count
        (bucketOf fps interval_sec (scores.length - 1)) = 1) := by
  refine ⟨rfl, ?_⟩
  intro hne
  rw [extract_eq_bruteList fps interval_sec scores hfps hint
    (fun x hx => lt_of_lt_of_le (by norm_num) (hsc x hx))]
  rw [bruteList_map_fst]
  apply List.count_eq_one_of_mem (List.nodup_dedup _)
  rw [List.mem_dedup]
  apply List.mem_map_of_mem
  rw [List.mem_range]
  have hpos := List.length_pos.mpr hne
  omega

/-- Witness for C4 at frame rate 2, interval 1, scores `[1, 3, 2]` (the stream
ends mid-bucket: bucket 1 holds only frame 2). -/
theorem extract_best_frames_final_bucket_witness :
    (0 : ℚ) ≤ 2 ∧ (0 : ℚ) < 1 ∧ ([1, 3, 2] : List ℚ) ≠ [] ∧
      (extract_best_frames 2 1 ([] : List ℚ) = [] ∧
        ((extract_best_frames 2 1 [1, 3, 2]).map Prod.fst).count
          (bucketOf 2 1 (([1, 3, 2] : List ℚ).length - 1)) = 1) :=
  ⟨by norm_num, by norm_num, by simp, by
    have h := extract_best_frames_final_bucket 2 1 [1, 3, 2] (by norm_num)
      (by norm_num) (by intro x hx; fin_cases hx <;> norm_num)
    exact ⟨h.1, h.2 (by simp)⟩⟩

/-- C5 counterexample: the claim asserts that a zero *or negative* frame rate
collapses all frames into bucket 0 with exactly one yielded pair.  With frame
rate `-1` (non-zero, hence truthy at line 46) and interval 1, the two-frame
stream with scores `[0, 0]` has elapsed times `0, -1`, buckets `0, -1`, and
yields the two pairs `[(0, 0), (-1, 1)]` — not one pair, and not all in
bucket 0. -/
theorem negative_fps_not_collapsed :
    extract_best_frames (-1) 1 [0, 0] = [(0, 0), (-1, 1)] ∧
      (extract_best_frames (-1) 1 [0, 0]).length ≠ 1 := by
  have h : extract_best_frames (-1) 1 [0, 0] = [(0, 0), (-1, 1)] := by
    norm_num [extract_best_frames, extractLoop, bucketOf, flush]
  exact ⟨h, by rw [h]; simp⟩

/-- C5 (amended): if the frame rate is *zero* then every frame's elapsed time
is treated as 0 (line 46's falsy branch), all frames map to bucket 0, and
`extract_best_frames` yields exactly one pair `(0, F)` with `F` the globally
sharpest frame (earliest on ties).  A negative frame rate is not treated as
zero; it yields negative, decreasing bucket indices (see the
counterexample). -/
theorem zero_fps_collapses_to_bucket_zero (interval_sec : ℚ)
    (scores : List ℚ) (hint : 0 < interval_sec) (hne : scores ≠ [])
    (hsc : ∀ x ∈ scores, 0 ≤ x) :
    ∃ F, extract_best_frames 0 interval_sec scores = [(0, F)] ∧
      F < scores.length ∧
      ∀ j < scores.length, scoreAt scores j ≤ scoreAt scores F := by
  obtain ⟨c, r, rfl⟩ := List.exists_cons_of_ne_nil hne
  rw [extract_eq_bruteList 0 interval_sec (c :: r) le_rfl hint
    (fun x hx => lt_of_lt_of_le (by norm_num) (hsc x hx))]
  have hg : ∀ i, bucketOf 0 interval_sec i = 0 := bucketOf_zero_fps interval_sec
  have hrange : List.range (c :: r).length = 0 :: List.range' 1 r.length := by
    rw [List.length_cons, List.range_eq_range']
    exact List.range'_succ 0 r.length 1
  rw [hrange, bruteList_cons _ _ 0 _
    (by intro j _; rw [hg, hg])
    ((List.pairwise_lt_range' 1 r.length).imp fun {a b} _ => by rw [hg, hg])]
  have hfilter1 : ((List.range' 1 r.length).filter
      fun j => bucketOf 0 interval_sec j = bucketOf 0 interval_sec 0) =
        List.range' 1 r.length :=
    List.filter_eq_self.mpr fun j _ => by simp [hg]
  have hfilter2 : ((List.range' 1 r.length).filter
      fun j => bucketOf 0 interval_sec 0 < bucketOf 0 interval_sec j) = [] := by
    rw [List.filter_eq_nil_iff]
    intro j _
    simp [hg]
  rw [hfilter1, hfilter2, hg 0]
  refine ⟨bestFrom (c :: r) 0 (List.range' 1 r.length), rfl, ?_, ?_⟩
  · have hmem := bestFrom_mem (c :: r) 0 (List.range' 1 r.length)
    rw [← hrange] at hmem
    exact List.mem_range.mp hmem
  · intro j hj
    have hjmem : j ∈ 0 :: List.range' 1 r.length := by
      rw [← hrange]
      exact List.mem_range.mpr hj
    exact bestFrom_le (c :: r) 0 (List.range' 1 r.length) j hjmem

/-- Witness for C5's amended statement at interval 1, scores `[1, 2]`. -/
theorem zero_fps_collapses_to_bucket_zero_witness :
    (0 : ℚ) < 1 ∧ ([1, 2] : List ℚ) ≠ [] ∧
      (∃ F, extract_best_frames 0 1 [1, 2] = [(0, F)] ∧
        F < ([1, 2] : List ℚ).length ∧
        ∀ j < ([1, 2] : List ℚ).length,
          scoreAt [1, 2] j ≤ scoreAt [1, 2] F) :=
  ⟨by norm_num, by simp,
    zero_fps_collapses_to_bucket_zero 1 [1, 2] (by norm_num) (by simp)
      (by intro x hx; fin_cases hx <;> norm_num)⟩

/-- C6 (evidence for the code bug): no code path validates
`interval_length ≤ 0`.  `main` (lines 104–135) parses `--interval` as an
arbitrary float and immediately submits the jobs, and `extract_best_frames`
happily consumes frames with a negative interval: at frame rate 1, interval
`-1`, scores `[0, 0]` it yields the pairs `[(0, 0), (-1, 1)]` instead of any
configuration error being surfaced before processing.  (With interval exactly
0 the generator raises `ZeroDivisionError` inside a worker thread, which the
unexamined futures of the executor swallow — still no pre-job, process-fatal
validation.) -/
theorem no_interval_validation :
    extract_best_frames 1 (-1) [0, 0] = [(0, 0), (-1, 1)] := by
  norm_num [extract_best_frames, extractLoop, bucketOf, flush]

/-- C7: a video that fails to open produces the warning of line 70 and no
written frame (early return at line 71); every job's outcome is a function of
its own video alone (the thread-pool jobs share no state), so the other
videos still produce their full output; and the process exits with status
0. -/
theorem open_failure_recoverable (interval_sec : ℚ) (videos : List Video)
    (v : Video) (hv : v.opens = false) :
    (process_video interval_sec v).warned = true ∧
    (process_video interval_sec v).files = [] ∧
    (∀ w : Video, w.opens = true → w.writeFails = false →
      (process_video interval_sec w).files =
        extract_best_frames w.fps interval_sec w.scores) ∧
    process_videos_concurrently interval_sec videos =
      videos.map (process_video interval_sec) ∧
    main_exit_code interval_sec videos = 0 := by
  refine ⟨?_, ?_, ?_, rfl, rfl⟩
  · simp [process_video, hv]
  · simp [process_video, hv]
  · intro w hw hwf
    simp [process_video, hw, hwf]

/-- Witness for C7: one unreadable video next to one readable video. -/
theorem open_failure_recoverable_witness :
    (Video.mk false false 1 []).opens = false ∧
      ((process_video 1 (Video.mk false false 1 [])).warned = true ∧
        (process_video 1 (Video.mk false false 1 [])).files = [] ∧
        (∀ w : Video, w.opens = true → w.writeFails = false →
          (process_video 1 w).files = extract_best_frames w.fps 1 w.scores) ∧
        process_videos_concurrently 1
            [Video.mk false false 1 [], Video.mk true false 1 [2]] =
          [Video.mk false false 1 [], Video.mk true false 1 [2]].map
            (process_video 1) ∧
        main_exit_code 1 [Video.mk false false 1 [], Video.mk true false 1 [2]] = 0) :=
  ⟨rfl, open_failure_recoverable 1
    [Video.mk false false 1 [], Video.mk true false 1 [2]]
    (Video.mk false false 1 []) rfl⟩

/-- C8 counterexample: the scheduler's return value is `None` for every input
(`process_videos_concurrently`, lines 91–102, has no `return` statement), so
a run over zero videos and a run over one video return the same value; a
function returning one `VideoJobResult` per input would have to distinguish
them (lists of length 0 and 1). -/
theorem scheduler_return_carries_no_results :
    process_videos_concurrently_return 1 [] =
      process_videos_concurrently_return 1 [Video.mk true false 1 [0]] := rfl

/-- C8 (amended): the scheduler runs one independent job per input video and
returns no aggregated value; the per-video outcomes are observable only as
effects, with one outcome per input, each being either a failure (warning
printed, no frames written) or a success (no warning; the extracted frames
are written). -/
theorem scheduler_effects_one_result_per_video (interval_sec : ℚ)
    (videos : List Video) :
    (process_videos_concurrently interval_sec videos).length = videos.length ∧
    ∀ res ∈ process_videos_concurrently interval_sec videos,
      (res.warned = true ∧ res.files = []) ∨ res.warned = false := by
  constructor
  · simp [process_videos_concurrently]
  · intro res hres
    obtain ⟨v, _hv, rfl⟩ := List.mem_map.mp hres
    by_cases hop : v.opens
    · right
      by_cases hwf : v.writeFails <;> simp [process_video, hop, hwf]
    · left
      simp [process_video, hop]

/-- Witness for C8's amended statement on a two-video run. -/
theorem scheduler_effects_one_result_per_video_witness :
    (process_videos_concurrently 1
        [Video.mk false false 1 [], Video.mk true false 1 [2]]).length =
      ([Video.mk false false 1 [], Video.mk true false 1 [2]] : List Video).length ∧
    ∀ res ∈ process_videos_concurrently 1
        [Video.mk false false 1 [], Video.mk true false 1 [2]],
      (res.warned = true ∧ res.files = []) ∨ res.warned = false :=
  scheduler_effects_one_result_per_video 1
    [Video.mk false false 1 [], Video.mk true false 1 [2]]

/-- C9 (evidence for the code bug): `cap.release()` (line 88) runs only on the
straight-line path.  On open failure `get_video_properties` raises at line 21
without releasing the `VideoCapture` it constructed and `process_video`
returns at line 71 without any release; an exception during `save_frame`
escapes the loop of lines 84–86 and skips line 88.  Only the normal-completion
path releases the handle. -/
theorem release_skipped_on_failure_paths :
    (process_video 1 (Video.mk false false 1 [])).released = false ∧
    (process_video 1 (Video.mk true true 1 [0])).released = false ∧
    (process_video 1 (Video.mk true false 1 [0])).released = true :=
  ⟨rfl, rfl, rfl⟩
